import Mathlib

/-!
Shallow embedding of `criterion-inverted-throughput` (`src/src/lib.rs`).

The crate defines a single component, `InvertedThroughput`, wrapping the
external `criterion::measurement::WallTime` measurement.  `WallTime` and its
formatter live in the external `criterion` crate and are consumed as-is, so
they are embedded abstractly: a `Measurement` record holds the capability
set (`start`/`end`/`add`/`zero`/`to_f64`) together with a `ValueFormatter`
record of scaling operations.  The element type of sample batches (Rust
`f64`) is a type parameter `F`; the claims that need arithmetic instantiate
it with `ℚ` (exact arithmetic) or with an explicit IEEE-style value model
`F64` carrying infinities and NaN.

Rust functions that mutate a `&mut [f64]` slice in place and return a label
are embedded as pure functions returning the pair
(final slice contents, label).
-/

set_option autoImplicit false

namespace CriterionInvertedThroughput

/-- Rust `criterion::Throughput`: a tagged `u64` count of bytes (binary
convention), bytes (decimal convention) or elements per iteration.
The `u64` payload is a `Nat`; no arithmetic other than the float cast is
ever performed on it, so wrap-around never matters. -/
inductive Throughput where
  | Bytes (v : Nat)
  | BytesDecimal (v : Nat)
  | Elements (v : Nat)
  deriving DecidableEq, Repr

/-- The `criterion::measurement::ValueFormatter` capability: each scaling
operation takes the values it would mutate in place and returns the pair
(mutated values, static unit label). -/
structure ValueFormatter (F : Type) where
  scale_values : F → List F → List F × String
  scale_throughputs : F → Throughput → List F → List F × String
  scale_for_machines : List F → List F × String

/-- The `criterion::measurement::Measurement` capability set, with the
associated `Intermediate` and `Value` types as parameters `I` and `V`.
`start` reads a clock; its result is embedded as an abstract value. -/
structure Measurement (I V F : Type) where
  start : I
  end' : I → V
  add : V → V → V
  zero : V
  to_f64 : V → F
  formatter : ValueFormatter F

/-- The crate's tuple struct `InvertedThroughput(WallTime)`, wrapping the
external `WallTime` measurement. -/
structure InvertedThroughput (I V F : Type) where
  wallTime : Measurement I V F

variable {I V F : Type}

/-- Constructor `InvertedThroughput::new` (parametrised by the wrapped measurement,
which in Rust is the unit value `WallTime`). -/
def InvertedThroughput.new (w : Measurement I V F) : InvertedThroughput I V F :=
  ⟨w⟩

/-- Method `Measurement::start` for `InvertedThroughput`: `self.0.start()`. -/
def InvertedThroughput.start (m : InvertedThroughput I V F) : I :=
  m.wallTime.start

/-- Method `Measurement::end` for `InvertedThroughput`: `self.0.end(i)`. -/
def InvertedThroughput.end' (m : InvertedThroughput I V F) (i : I) : V :=
  m.wallTime.end' i

/-- Method `Measurement::add` for `InvertedThroughput`: `self.0.add(v1, v2)`. -/
def InvertedThroughput.add (m : InvertedThroughput I V F) (v1 v2 : V) : V :=
  m.wallTime.add v1 v2

/-- Method `Measurement::zero` for `InvertedThroughput`: `self.0.zero()`. -/
def InvertedThroughput.zero (m : InvertedThroughput I V F) : V :=
  m.wallTime.zero

/-- Method `Measurement::to_f64` for `InvertedThroughput`: `self.0.to_f64(val)`. -/
def InvertedThroughput.to_f64 (m : InvertedThroughput I V F) (val : V) : F :=
  m.wallTime.to_f64 val

/-- Method `InvertedThroughput::time_per_unit` (lib.rs:101-107): divides the
typical value and every batch entry by `units`, then delegates to the
wrapped formatter's `scale_values` on the divided data. -/
def InvertedThroughput.time_per_unit [Div F] (m : InvertedThroughput I V F)
    (units typical_value : F) (values : List F) : List F × String :=
  let typical_time := typical_value / units
  let values := values.map fun val => val / units
  m.wallTime.formatter.scale_values typical_time values

/-- Method `InvertedThroughput::static_denom` (lib.rs:109-123): the closed lookup
table from (time unit, category) to the compound label, with the
`"UNEXPECTED"` sentinel for every pair outside the table. -/
def InvertedThroughput.static_denom (_m : InvertedThroughput I V F)
    (time_denom unit_denom : String) : String :=
  match (unit_denom, time_denom) with
  | ("byte", "ps") => "ps/byte"
  | ("byte", "ns") => "ns/byte"
  | ("byte", "µs") => "µs/byte"
  | ("byte", "ms") => "ms/byte"
  | ("byte", "s") => "s/byte"
  | ("elem", "ps") => "ps/elem"
  | ("elem", "ns") => "ns/elem"
  | ("elem", "µs") => "µs/elem"
  | ("elem", "ms") => "ms/elem"
  | ("elem", "s") => "s/elem"
  | _ => "UNEXPECTED"

/-- Method `ValueFormatter::scale_values` for `InvertedThroughput` (lib.rs:127-129):
direct delegation to the wrapped formatter. -/
def InvertedThroughput.scale_values (m : InvertedThroughput I V F)
    (typical_value : F) (values : List F) : List F × String :=
  m.wallTime.formatter.scale_values typical_value values

/-- Method `ValueFormatter::scale_throughputs` for `InvertedThroughput`
(lib.rs:131-143): extracts `(count as f64, category)` from the throughput
spec, inverts via `time_per_unit`, and combines the resulting time unit
with the category via `static_denom`.  The Rust `v as f64` cast is the
canonical `Nat` cast into `F`. -/
def InvertedThroughput.scale_throughputs [Div F] [NatCast F]
    (m : InvertedThroughput I V F) (typical_value : F)
    (throughput : Throughput) (values : List F) : List F × String :=
  let y : F × String :=
    match throughput with
    | Throughput.Bytes v => ((v : F), "byte")
    | Throughput.BytesDecimal v => ((v : F), "byte")
    | Throughput.Elements v => ((v : F), "elem")
  let r := m.time_per_unit y.1 typical_value values
  (r.1, m.static_denom r.2 y.2)

/-- Method `ValueFormatter::scale_for_machines` for `InvertedThroughput`
(lib.rs:145-147): direct delegation to the wrapped formatter. -/
def InvertedThroughput.scale_for_machines (m : InvertedThroughput I V F)
    (values : List F) : List F × String :=
  m.wallTime.formatter.scale_for_machines values

/-- The numeric count extracted from a throughput spec, as in the `match`
of `scale_throughputs` (lib.rs:137-141). -/
def Throughput.count : Throughput → Nat
  | Throughput.Bytes v => v
  | Throughput.BytesDecimal v => v
  | Throughput.Elements v => v

/-- The category string extracted from a throughput spec, as in the `match`
of `scale_throughputs` (lib.rs:137-141). -/
def Throughput.category : Throughput → String
  | Throughput.Bytes _ => "byte"
  | Throughput.BytesDecimal _ => "byte"
  | Throughput.Elements _ => "elem"

/-!
An explicit model of IEEE-754 binary64 values for the zero-divisor claim:
finite values (kept exact as rationals, since rounding plays no role in the
infinite/NaN classification), the two infinities, and NaN.
-/

/-- An IEEE-style `f64` value model: exact finite rationals plus `inf`,
`neginf` and `nan`. -/
inductive F64 where
  | finite (q : ℚ)
  | inf
  | neginf
  | nan
  deriving DecidableEq, Repr

/-- Division per IEEE 754 on the `F64` model.  Finite-by-nonzero division is
kept exact; the zero-divisor and special-operand rules follow IEEE 754
(signed zeros are not distinguished, so `x / 0` for negative `x` is
`neginf` as for the positive divisor sign). -/
def F64.div : F64 → F64 → F64
  | F64.nan, _ => F64.nan
  | _, F64.nan => F64.nan
  | F64.inf, F64.inf => F64.nan
  | F64.inf, F64.neginf => F64.nan
  | F64.neginf, F64.inf => F64.nan
  | F64.neginf, F64.neginf => F64.nan
  | F64.inf, F64.finite b => if b < 0 then F64.neginf else F64.inf
  | F64.neginf, F64.finite b => if b < 0 then F64.inf else F64.neginf
  | F64.finite _, F64.inf => F64.finite 0
  | F64.finite _, F64.neginf => F64.finite 0
  | F64.finite a, F64.finite b =>
    if b = 0 then
      if a = 0 then F64.nan else if 0 < a then F64.inf else F64.neginf
    else F64.finite (a / b)

instance : Div F64 := ⟨F64.div⟩

/-- The `u64 as f64` cast on the `F64` model: exact (the model abstracts
mantissa rounding, which never affects the degenerate classification). -/
instance : NatCast F64 := ⟨fun n => F64.finite n⟩

/-- A mathematically degenerate `f64` value: infinite or NaN. -/
def F64.degenerate : F64 → Prop
  | F64.finite _ => False
  | F64.inf => True
  | F64.neginf => True
  | F64.nan => True

instance (x : F64) : Decidable x.degenerate := by
  cases x <;> simp only [F64.degenerate] <;> infer_instance

/-!
The verification harness of the crate (lib.rs tests module): the
normalisation helpers used by `test_invert_throughput`, embedded over exact
rationals.  Rust's `str::starts_with` is embedded as character-list prefix
testing, which agrees with byte-prefix testing on valid UTF-8.
-/

/-- Rust `str::starts_with`. -/
def starts_with (s pre : String) : Bool :=
  pre.data.isPrefixOf s.data

/-- Test helper `tests::normalize_time` (lib.rs:183-197): converts a value expressed in
the unit named by `denom` (matched by prefix) to seconds; `none` stands for
the `panic!` branch on an unrecognised denominator. -/
def normalize_time (denom : String) (value : ℚ) : Option ℚ :=
  if starts_with denom "ps" then some (value / 1000000000000)
  else if starts_with denom "ns" then some (value / 1000000000)
  else if starts_with denom "µs" then some (value / 1000000)
  else if starts_with denom "ms" then some (value / 1000)
  else if starts_with denom "s" then some value
  else none

/-- Test helper `tests::normalize_amount` (lib.rs:199-209): converts a count value
expressed with a metric prefix (matched by string prefix) to an absolute
count; unprefixed denominators pass the value through. -/
def normalize_amount (denom : String) (value : ℚ) : ℚ :=
  if starts_with denom "G" then value * 1000000000
  else if starts_with denom "M" then value * 1000000
  else if starts_with denom "K" then value * 1000
  else value

/-!
Contracts of the external `WallTime` collaborator.  Its formatter is not
part of this crate, so the numerical claims are proved under hypotheses
that state its documented behaviour: `scale_values` rescales every entry by
one factor consistent with the unit label it returns, and the plain
throughput scaling reports (up to the unit-prefix rounding the test
tolerance allows for) `count` per second.
-/

/-- The closed set of time-unit labels the base time formatter returns. -/
def timeUnits : List String := ["ps", "ns", "µs", "ms", "s"]

/-- The closed set of category strings used by `scale_throughputs`. -/
def categories : List String := ["elem", "byte"]

/-- Contract of the base time formatter's `scale_values` (values in
nanoseconds): each call rescales all entries by one nonzero factor `s`,
returns one of the closed time-unit labels, and that label normalises a
scaled value `y` back to `y / s` nanoseconds, i.e. `y / s / 1e9` seconds. -/
def ScaleConsistent (fmt : ℚ → List ℚ → List ℚ × String) : Prop :=
  ∀ x l, ∃ s : ℚ, s ≠ 0 ∧
    (fmt x l).1 = l.map (fun v => v * s) ∧
    (fmt x l).2 ∈ timeUnits ∧
    ∀ y : ℚ, normalize_time (fmt x l).2 y = some (y / s / 1000000000)

/-- Contract of the base formatter's plain `scale_throughputs` (values in
nanoseconds): each reported entry, normalised by its unit prefix, is the
ideal throughput `count / seconds = count * 1e9 / v` up to a relative
rounding factor `r` with `|r - 1| < 0.075` (the test tolerance, which
absorbs the binary-vs-decimal byte-prefix discrepancy). -/
def ApproxInverseThroughput
    (fmt : ℚ → Throughput → List ℚ → List ℚ × String) : Prop :=
  ∀ x tp l i, i < l.length → l.getD i 0 ≠ 0 →
    ∃ r : ℚ, |r - 1| < 3 / 40 ∧
      normalize_amount (fmt x tp l).2 ((fmt x tp l).1.getD i 0) =
        (tp.count : ℚ) * 1000000000 / l.getD i 0 * r

/-- A concrete formatter satisfying both contracts, used to witness the
hypotheses of the parametric theorems: it scales time values by `1`
labelled `"ns"` and reports exact throughputs labelled `"elem"`. -/
def testFormatter : ValueFormatter ℚ where
  scale_values := fun _ l => (l.map fun v => v * 1, "ns")
  scale_throughputs := fun _ tp l =>
    (l.map fun v => (tp.count : ℚ) * 1000000000 / v, "elem")
  scale_for_machines := fun l => (l, "ns")

/-- A concrete measurement wrapping `testFormatter`. -/
def testMeasurement : Measurement Unit ℚ ℚ where
  start := ()
  end' := fun _ => 0
  add := fun a b => a + b
  zero := 0
  to_f64 := fun v => v
  formatter := testFormatter

theorem getD_map {α β : Type} (f : α → β) (l : List α) (i : Nat)
    (hi : i < l.length) (d : β) (d' : α) :
    (l.map f).getD i d = f (l.getD i d') := by
  rw [List.getD_eq_getElem l d' hi,
    List.getD_eq_getElem (l.map f) d (by simpa using hi)]
  simp

theorem testFormatter_scaleConsistent :
    ScaleConsistent testFormatter.scale_values := by
  intro x l
  refine ⟨1, one_ne_zero, rfl, (by decide : ("ns" : String) ∈ timeUnits),
    fun y => ?_⟩
  show some (y / 1000000000) = some (y / 1 / 1000000000)
  rw [div_one]

theorem testFormatter_approxInverse :
    ApproxInverseThroughput testFormatter.scale_throughputs := by
  intro x tp l i hi hv
  refine ⟨1, by norm_num, ?_⟩
  show normalize_amount "elem" ((l.map _).getD i 0) = _
  rw [getD_map _ l i hi 0 0]
  show (tp.count : ℚ) * 1000000000 / l.getD i 0 = _
  rw [mul_one]

theorem category_mem_categories (tp : Throughput) :
    tp.category ∈ categories := by
  cases tp
  · exact (by decide : ("byte" : String) ∈ categories)
  · exact (by decide : ("byte" : String) ∈ categories)
  · exact (by decide : ("elem" : String) ∈ categories)

theorem static_denom_table (m : InvertedThroughput I V F) (t c : String)
    (ht : t ∈ timeUnits) (hc : c ∈ categories) :
    m.static_denom t c = t ++ "/" ++ c := by
  unfold timeUnits at ht
  unfold categories at hc
  fin_cases ht <;> fin_cases hc <;> rfl

/-- C1: `scale_throughputs` computes `typical_time = t / N`, divides every
batch entry by `N` in place, and delegates to the base formatter's
`scale_values` on the divided data: the final batch is exactly the base
formatter's batch, and the returned label combines the base formatter's
time unit with the category (so when that unit is in the closed time-unit
set, the label's time-unit part is exactly the base formatter's unit). -/
theorem scale_throughputs_divides_then_delegates [Div F] [NatCast F]
    (m : InvertedThroughput I V F) (t : F) (tp : Throughput) (vs : List F) :
    m.scale_throughputs t tp vs =
        ((m.wallTime.formatter.scale_values (t / (tp.count : F))
            (vs.map fun v => v / (tp.count : F))).1,
          m.static_denom
            (m.wallTime.formatter.scale_values (t / (tp.count : F))
              (vs.map fun v => v / (tp.count : F))).2 tp.category) ∧
      ((m.wallTime.formatter.scale_values (t / (tp.count : F))
            (vs.map fun v => v / (tp.count : F))).2 ∈ timeUnits →
        (m.scale_throughputs t tp vs).2 =
          (m.wallTime.formatter.scale_values (t / (tp.count : F))
            (vs.map fun v => v / (tp.count : F))).2 ++ "/" ++ tp.category) := by
  constructor
  · cases tp <;> rfl
  · intro hu
    have h1 : (m.scale_throughputs t tp vs).2 =
        m.static_denom
          (m.wallTime.formatter.scale_values (t / (tp.count : F))
            (vs.map fun v => v / (tp.count : F))).2 tp.category := by
      cases tp <;> rfl
    rw [h1, static_denom_table _ _ _ hu (category_mem_categories tp)]

/-- C1 witness: at a concrete measurement and batch, the divided batch and
the combined label come out as the theorem states. -/
theorem scale_throughputs_divides_then_delegates_witness :
    ((InvertedThroughput.new testMeasurement).scale_throughputs (6 : ℚ)
      (Throughput.Elements 3) [12]).2 = "ns" ++ "/" ++ "elem" := by
  have h := scale_throughputs_divides_then_delegates
    (InvertedThroughput.new testMeasurement) (6 : ℚ) (Throughput.Elements 3) [12]
  exact h.2 (by decide)

/-- C2: `static_denom` realises the closed ten-entry table: on every pair
of a time unit in `{ps, ns, µs, ms, s}` and a category in `{elem, byte}`
it returns the literal concatenation `"<time-unit>/<category>"`, and on
every other pair of strings it returns the fixed `"UNEXPECTED"` sentinel. -/
theorem static_denom_closed_table (m : InvertedThroughput I V F)
    (t c : String) :
    m.static_denom t c =
      if t ∈ ["ps", "ns", "µs", "ms", "s"] ∧ c ∈ ["elem", "byte"] then
        t ++ "/" ++ c
      else "UNEXPECTED" := by
  by_cases h : t ∈ ["ps", "ns", "µs", "ms", "s"] ∧ c ∈ ["elem", "byte"]
  · rw [if_pos h]
    obtain ⟨ht, hc⟩ := h
    fin_cases ht <;> fin_cases hc <;> rfl
  · rw [if_neg h]
    unfold InvertedThroughput.static_denom
    split <;> first
      | rfl
      | (rename_i heq
         injection heq with h1 h2
         subst h1
         subst h2
         exact absurd (by decide) h)

/-- C5: the binary and decimal byte conventions are treated identically:
`Bytes n` and `BytesDecimal n` yield the same `scale_throughputs` result
(same mutated batch, same label), both carry numeric count `n`, and both
map to category `"byte"`. -/
theorem bytes_decimal_agree [Div F] [NatCast F] (m : InvertedThroughput I V F)
    (t : F) (n : Nat) (vs : List F) :
    m.scale_throughputs t (Throughput.Bytes n) vs
        = m.scale_throughputs t (Throughput.BytesDecimal n) vs ∧
      (Throughput.Bytes n).count = n ∧
      (Throughput.BytesDecimal n).count = n ∧
      (Throughput.Bytes n).category = "byte" ∧
      (Throughput.BytesDecimal n).category = "byte" :=
  ⟨rfl, rfl, rfl, rfl, rfl⟩

/-- C7: every operation other than `scale_throughputs` is pure delegation
to the wrapped `WallTime` measurement and its formatter: `start`, `end`,
`add`, `zero` and `to_f64` forward to the measurement, and `scale_values`
and `scale_for_machines` forward to its formatter, with no extra logic. -/
theorem delegation_only_override (m : InvertedThroughput I V F) :
    m.start = m.wallTime.start ∧
    (∀ i, m.end' i = m.wallTime.end' i) ∧
    (∀ v1 v2, m.add v1 v2 = m.wallTime.add v1 v2) ∧
    m.zero = m.wallTime.zero ∧
    (∀ v, m.to_f64 v = m.wallTime.to_f64 v) ∧
    (∀ t vs, m.scale_values t vs = m.wallTime.formatter.scale_values t vs) ∧
    (∀ vs, m.scale_for_machines vs
      = m.wallTime.formatter.scale_for_machines vs) :=
  ⟨rfl, fun _ => rfl, fun _ _ => rfl, rfl, fun _ => rfl,
    fun _ _ => rfl, fun _ => rfl⟩

/-- A concrete formatter over the `F64` value model, for witnesses. -/
def testFormatterF64 : ValueFormatter F64 where
  scale_values := fun _ l => (l, "ns")
  scale_throughputs := fun _ _ l => (l, "elem")
  scale_for_machines := fun l => (l, "ns")

/-- A concrete measurement over the `F64` value model, for witnesses. -/
def testMeasurementF64 : Measurement Unit F64 F64 where
  start := ()
  end' := fun _ => F64.finite 0
  add := fun a _ => a
  zero := F64.finite 0
  to_f64 := fun v => v
  formatter := testFormatterF64

theorem div_finite_zero_degenerate (v : F64) :
    (v / F64.finite 0).degenerate := by
  cases v
  case finite q =>
    show (F64.div (F64.finite q) (F64.finite 0)).degenerate
    simp only [F64.div]
    split_ifs <;> simp_all [F64.degenerate]
  case inf => decide
  case neginf => decide
  case nan => decide

theorem natCast_zero_f64 : ((0 : ℕ) : F64) = F64.finite 0 := by
  show F64.finite ((0 : ℕ) : ℚ) = F64.finite 0
  norm_num

/-- C6: the batch transformation preserves length and order: assuming the
base formatter's `scale_values` maps its input batch entrywise (as its
contract states), the output batch of `scale_throughputs` has the length of
the input batch and its entry at each index is a function of the input
entry at the same index — nothing is discarded, duplicated or permuted. -/
theorem length_and_order_preserved [Div F] [NatCast F]
    (m : InvertedThroughput I V F) (t : F) (tp : Throughput) (vs : List F)
    (hder : ∀ x l, ∃ g : F → F,
      (m.wallTime.formatter.scale_values x l).1 = l.map g) :
    (m.scale_throughputs t tp vs).1.length = vs.length ∧
    ∃ g : F → F, (m.scale_throughputs t tp vs).1
      = vs.map fun v => g (v / (tp.count : F)) := by
  have h1 : (m.scale_throughputs t tp vs).1 =
      (m.wallTime.formatter.scale_values (t / (tp.count : F))
        (vs.map fun v => v / (tp.count : F))).1 := by
    cases tp <;> rfl
  obtain ⟨g, hg⟩ :=
    hder (t / (tp.count : F)) (vs.map fun v => v / (tp.count : F))
  constructor
  · rw [h1, hg]
    simp
  · exact ⟨g, by rw [h1, hg, List.map_map]; rfl⟩

/-- C6 witness: at a concrete measurement whose base formatter maps
entrywise, a two-entry batch keeps its length and entrywise structure. -/
theorem length_and_order_preserved_witness :
    ((InvertedThroughput.new testMeasurement).scale_throughputs (6 : ℚ)
        (Throughput.Elements 3) [12, 9]).1.length
        = ([12, 9] : List ℚ).length ∧
    ∃ g : ℚ → ℚ,
      ((InvertedThroughput.new testMeasurement).scale_throughputs (6 : ℚ)
          (Throughput.Elements 3) [12, 9]).1
        = ([12, 9] : List ℚ).map
            fun v => g (v / (((Throughput.Elements 3).count : ℕ) : ℚ)) :=
  length_and_order_preserved (InvertedThroughput.new testMeasurement)
    (6 : ℚ) (Throughput.Elements 3) [12, 9]
    (fun _ _ => ⟨fun v => v * 1, rfl⟩)

/-- C9: a zero-length batch is passed through harmlessly: the output batch
is again empty (given that the base formatter preserves length), nothing
fails, and the returned label is still the compound label determined by
`typical_value / count` and the category of the throughput spec. -/
theorem empty_batch_harmless [Div F] [NatCast F]
    (m : InvertedThroughput I V F) (t : F) (tp : Throughput)
    (hlen : ∀ x l,
      ((m.wallTime.formatter.scale_values x l).1).length = l.length) :
    (m.scale_throughputs t tp []).1 = [] ∧
    (m.scale_throughputs t tp []).2 =
      m.static_denom
        (m.wallTime.formatter.scale_values (t / (tp.count : F)) []).2
        tp.category := by
  have h1 : m.scale_throughputs t tp ([] : List F) =
      ((m.wallTime.formatter.scale_values (t / (tp.count : F)) []).1,
        m.static_denom
          (m.wallTime.formatter.scale_values (t / (tp.count : F)) []).2
          tp.category) := by
    cases tp <;> rfl
  constructor
  · rw [h1]
    have h2 := hlen (t / (tp.count : F)) []
    simp only [List.length_nil] at h2
    exact List.length_eq_zero.mp h2
  · rw [h1]

/-- C9 witness: at a concrete measurement, the empty batch stays empty and
the label is the compound label of the base unit and the category. -/
theorem empty_batch_harmless_witness :
    ((InvertedThroughput.new testMeasurement).scale_throughputs (6 : ℚ)
        (Throughput.Elements 3) []).1 = ([] : List ℚ) ∧
    ((InvertedThroughput.new testMeasurement).scale_throughputs (6 : ℚ)
        (Throughput.Elements 3) []).2 =
      (InvertedThroughput.new testMeasurement).static_denom
        ((InvertedThroughput.new
            testMeasurement).wallTime.formatter.scale_values
          ((6 : ℚ) / (((Throughput.Elements 3).count : ℕ) : ℚ)) []).2
        (Throughput.Elements 3).category :=
  empty_batch_harmless (InvertedThroughput.new testMeasurement) (6 : ℚ)
    (Throughput.Elements 3) (fun _ l => List.length_map l _)

/-- C8: `scale_throughputs` raises no failure on any input: with a
zero-count throughput spec every per-entry division is still performed
(IEEE division by zero on the `F64` model), each divided batch entry is
degenerate (infinite or NaN), and the call still evaluates to a batch and a
label exactly as in the nonzero case. -/
theorem zero_count_degenerate (m : InvertedThroughput Unit F64 F64)
    (t : F64) (tp : Throughput) (vs : List F64) (h : tp.count = 0) :
    (∀ w ∈ vs.map fun v => v / (tp.count : F64), w.degenerate) ∧
    m.scale_throughputs t tp vs =
      ((m.wallTime.formatter.scale_values (t / (tp.count : F64))
          (vs.map fun v => v / (tp.count : F64))).1,
        m.static_denom
          (m.wallTime.formatter.scale_values (t / (tp.count : F64))
            (vs.map fun v => v / (tp.count : F64))).2 tp.category) := by
  constructor
  · intro w hw
    rw [List.mem_map] at hw
    obtain ⟨v, _, rfl⟩ := hw
    rw [h, natCast_zero_f64]
    exact div_finite_zero_degenerate v
  · cases tp <;> rfl

/-- C8 witness: with `Elements 0` and batch entry `1.0`, the divided entry
is degenerate (here `+inf`). -/
theorem zero_count_degenerate_witness :
    F64.degenerate
      (F64.finite 1 / (((Throughput.Elements 0).count : ℕ) : F64)) :=
  (zero_count_degenerate (InvertedThroughput.new testMeasurementF64)
      (F64.finite 5) (Throughput.Elements 0) [F64.finite 1] rfl).1
    (F64.finite 1 / (((Throughput.Elements 0).count : ℕ) : F64))
    (List.mem_singleton.mpr rfl)

theorem scale_throughputs_eq [Div F] [NatCast F]
    (m : InvertedThroughput I V F) (t : F) (tp : Throughput) (vs : List F) :
    m.scale_throughputs t tp vs =
      ((m.wallTime.formatter.scale_values (t / (tp.count : F))
          (vs.map fun v => v / (tp.count : F))).1,
        m.static_denom
          (m.wallTime.formatter.scale_values (t / (tp.count : F))
            (vs.map fun v => v / (tp.count : F))).2 tp.category) := by
  cases tp <;> rfl

theorem normalize_time_static_denom (m : InvertedThroughput I V F)
    (u c : String) (hu : u ∈ timeUnits) (hc : c ∈ categories) (y : ℚ) :
    normalize_time (m.static_denom u c) y = normalize_time u y := by
  unfold timeUnits at hu
  unfold categories at hc
  fin_cases hu <;> fin_cases hc <;> rfl

/-- The normalised value of the inverted batch at index `i`: under the
base formatter contract, entry `i` of the `scale_throughputs` batch,
normalised to seconds by the returned label, is exactly
`vs[i] / count / 1e9`. -/
theorem inverted_normalized (m : InvertedThroughput I V ℚ) (t : ℚ)
    (tp : Throughput) (vs : List ℚ)
    (hfmt : ScaleConsistent m.wallTime.formatter.scale_values)
    (i : ℕ) (hi : i < vs.length) :
    normalize_time (m.scale_throughputs t tp vs).2
        ((m.scale_throughputs t tp vs).1.getD i 0)
      = some (vs.getD i 0 / (tp.count : ℚ) / 1000000000) := by
  obtain ⟨s, hs0, hsv, hsu, hsn⟩ :=
    hfmt (t / (tp.count : ℚ)) (vs.map fun v => v / (tp.count : ℚ))
  rw [scale_throughputs_eq, hsv]
  have hlen : i < (vs.map fun v => v / (tp.count : ℚ)).length := by
    simpa using hi
  rw [getD_map _ _ i hlen 0 0, getD_map _ _ i hi 0 0,
    normalize_time_static_denom m _ _ hsu (category_mem_categories tp), hsn]
  congr 1
  rw [mul_div_assoc, div_self hs0, mul_one]

/-- The normalised value of the plain-scaled batch at index `i`: under the
base formatter contract, entry `i` of the `scale_values` batch, normalised
to seconds by the returned label, is exactly `vs[i] / 1e9`. -/
theorem plain_normalized (m : InvertedThroughput I V ℚ) (t : ℚ)
    (vs : List ℚ)
    (hfmt : ScaleConsistent m.wallTime.formatter.scale_values)
    (i : ℕ) (hi : i < vs.length) :
    normalize_time (m.scale_values t vs).2
        ((m.scale_values t vs).1.getD i 0)
      = some (vs.getD i 0 / 1000000000) := by
  obtain ⟨s, hs0, hsv, _, hsn⟩ := hfmt t vs
  have h0 : m.scale_values t vs = m.wallTime.formatter.scale_values t vs :=
    rfl
  rw [h0, hsv, getD_map _ _ i hi 0 0, hsn]
  congr 1
  rw [mul_div_assoc, div_self hs0, mul_one]

/-- C3: for nonzero count, each inverted value produced by
`scale_throughputs`, normalised to seconds using the returned label, equals
the corresponding plain `scale_values` output on the original batch,
normalised to seconds, divided by the count — here exactly (the embedding
computes with exact rationals), hence within the claimed relative
tolerance of `1e-12`. -/
theorem equivalence_property (m : InvertedThroughput I V ℚ) (t : ℚ)
    (tp : Throughput) (vs : List ℚ)
    (hfmt : ScaleConsistent m.wallTime.formatter.scale_values)
    (_hN : tp.count ≠ 0) (i : ℕ) (hi : i < vs.length) :
    ∃ a b : ℚ,
      normalize_time (m.scale_throughputs t tp vs).2
          ((m.scale_throughputs t tp vs).1.getD i 0) = some a ∧
      normalize_time (m.scale_values t vs).2
          ((m.scale_values t vs).1.getD i 0) = some b ∧
      |a - b / (tp.count : ℚ)|
        ≤ |b / (tp.count : ℚ)| / 1000000000000 := by
  refine ⟨vs.getD i 0 / (tp.count : ℚ) / 1000000000,
    vs.getD i 0 / 1000000000,
    inverted_normalized m t tp vs hfmt i hi,
    plain_normalized m t vs hfmt i hi, ?_⟩
  have hz : vs.getD i 0 / (tp.count : ℚ) / 1000000000
      - vs.getD i 0 / 1000000000 / (tp.count : ℚ) = 0 := by
    rw [div_div, div_div, mul_comm]
    ring
  rw [hz, abs_zero]
  positivity

/-- C3 witness: at a concrete scale-consistent measurement, count 3 and
batch `[12]`, the two normalised values exist and satisfy the bound. -/
theorem equivalence_property_witness :
    ∃ a b : ℚ,
      normalize_time
          ((InvertedThroughput.new testMeasurement).scale_throughputs (6 : ℚ)
            (Throughput.Elements 3) [12]).2
          (((InvertedThroughput.new testMeasurement).scale_throughputs (6 : ℚ)
            (Throughput.Elements 3) [12]).1.getD 0 0) = some a ∧
      normalize_time
          ((InvertedThroughput.new testMeasurement).scale_values (6 : ℚ)
            [12]).2
          (((InvertedThroughput.new testMeasurement).scale_values (6 : ℚ)
            [12]).1.getD 0 0) = some b ∧
      |a - b / (((Throughput.Elements 3).count : ℕ) : ℚ)|
        ≤ |b / (((Throughput.Elements 3).count : ℕ) : ℚ)| / 1000000000000 :=
  equivalence_property (InvertedThroughput.new testMeasurement) (6 : ℚ)
    (Throughput.Elements 3) [12] testFormatter_scaleConsistent
    (by decide) 0 (by decide)

/-- C4: the product of an inverted value (normalised to seconds via its
label) and the corresponding plain throughput value of the baseline
formatter (normalised via its unit prefix) differs from 1 by less than
`0.075`, given the baseline contracts. -/
theorem inversion_property (m : InvertedThroughput I V ℚ) (t : ℚ)
    (tp : Throughput) (vs : List ℚ)
    (hfmt : ScaleConsistent m.wallTime.formatter.scale_values)
    (hthr : ApproxInverseThroughput m.wallTime.formatter.scale_throughputs)
    (hN : tp.count ≠ 0) (i : ℕ) (hi : i < vs.length)
    (hv : vs.getD i 0 ≠ 0) :
    ∃ a : ℚ,
      normalize_time (m.scale_throughputs t tp vs).2
          ((m.scale_throughputs t tp vs).1.getD i 0) = some a ∧
      |a * normalize_amount
            (m.wallTime.formatter.scale_throughputs t tp vs).2
            ((m.wallTime.formatter.scale_throughputs t tp vs).1.getD i 0)
          - 1| < 3 / 40 := by
  refine ⟨vs.getD i 0 / (tp.count : ℚ) / 1000000000,
    inverted_normalized m t tp vs hfmt i hi, ?_⟩
  obtain ⟨r, hr, hre⟩ := hthr t tp vs i hi hv
  rw [hre]
  have hNq : ((tp.count : ℕ) : ℚ) ≠ 0 := Nat.cast_ne_zero.mpr hN
  have key : ∀ v c q : ℚ, v ≠ 0 → c ≠ 0 → v / c * (c / v * q) = q := by
    intro v c q hv0 hc0
    rw [← mul_assoc, div_mul_div_comm, mul_comm c v,
      div_self (mul_ne_zero hv0 hc0), one_mul]
  have hprod : vs.getD i 0 / (tp.count : ℚ) / 1000000000
      * ((tp.count : ℚ) * 1000000000 / vs.getD i 0 * r) = r := by
    rw [div_div]
    exact key _ _ r hv (mul_ne_zero hNq (by norm_num))
  rw [hprod]
  exact hr

/-- C4 witness: at a concrete measurement satisfying both baseline
contracts, count 3 and batch `[12]`, the normalised product is within
`0.075` of 1. -/
theorem inversion_property_witness :
    ∃ a : ℚ,
      normalize_time
          ((InvertedThroughput.new testMeasurement).scale_throughputs (6 : ℚ)
            (Throughput.Elements 3) [12]).2
          (((InvertedThroughput.new testMeasurement).scale_throughputs (6 : ℚ)
            (Throughput.Elements 3) [12]).1.getD 0 0) = some a ∧
      |a * normalize_amount
            ((InvertedThroughput.new
                testMeasurement).wallTime.formatter.scale_throughputs (6 : ℚ)
              (Throughput.Elements 3) [12]).2
            (((InvertedThroughput.new
                testMeasurement).wallTime.formatter.scale_throughputs (6 : ℚ)
              (Throughput.Elements 3) [12]).1.getD 0 0)
          - 1| < 3 / 40 :=
  inversion_property (InvertedThroughput.new testMeasurement) (6 : ℚ)
    (Throughput.Elements 3) [12] testFormatter_scaleConsistent
    testFormatter_approxInverse (by decide) 0 (by decide) (by norm_num)

/-- Nonnegative integers exactly representable in IEEE-754 binary64: a
53-bit significand times a power of two (exponent-range limits never bind
in the `u64` range). -/
def representableF64 (x : ℕ) : Prop :=
  ∃ m e : ℕ, m < 2 ^ 53 ∧ x = m * 2 ^ e

/-- C10: the `u64` count inside the throughput spec is used as a
floating-point divisor via an `as f64` cast: every count at most `2^53`
is exactly representable in binary64 (so the cast is exact), while some
valid `u64` counts above `2^53` (e.g. `2^53 + 1`) are not representable,
so the cast must round them. -/
theorem count_cast_exactness :
    (∀ tp : Throughput, tp.count ≤ 2 ^ 53 → representableF64 tp.count) ∧
    ∃ tp : Throughput, tp.count < 2 ^ 64 ∧ 2 ^ 53 < tp.count ∧
      ¬representableF64 tp.count := by
  constructor
  · intro tp h
    rcases Nat.lt_or_ge tp.count (2 ^ 53) with h1 | h1
    · exact ⟨tp.count, 0, h1, by simp⟩
    · have h2 : tp.count = 2 ^ 53 := le_antisymm h h1
      exact ⟨2 ^ 52, 1, by norm_num, by rw [h2]; norm_num⟩
  · refine ⟨Throughput.Elements (2 ^ 53 + 1), by decide, by decide, ?_⟩
    rintro ⟨m, e, hm, he⟩
    have he' : 2 ^ 53 + 1 = m * 2 ^ e := he
    cases e with
    | zero =>
      rw [pow_zero, mul_one] at he'
      norm_num at he' hm
      omega
    | succ k =>
      have h2 : 2 ∣ 2 ^ 53 + 1 :=
        ⟨m * 2 ^ k, by rw [he', pow_succ]; ring⟩
      norm_num at h2

/-- C10 witness: a concrete count below the threshold, `1000`, is exactly
representable. -/
theorem count_cast_exactness_witness :
    representableF64 (Throughput.Elements 1000).count :=
  count_cast_exactness.1 (Throughput.Elements 1000) (by decide)

end CriterionInvertedThroughput
